import Mathlib

/-!
Verification development for the dbarts BART sampler.

The repository fragment under verification contains the RNG enumerations
(`inst/include/dbarts/random.hpp`) directly; the tree-ensemble MCMC engine
itself is described by the specification (its code lives outside the visible
fragment), so those parts are modelled from the spec, as marked on each
definition.
-/

namespace Dbarts

/-- An observation: its vector of predictor values, one rational per column. -/
abbrev Obs : Type := List ℚ

/-- Value of predictor `v` for observation `x` (0 when out of range). -/
def getVar (x : Obs) (v : ℕ) : ℚ := x.getD v 0

/-- Modelled from the spec: a Tree owns a root node; internal nodes carry a
split rule (variable index + threshold) and two children; leaves carry a
scalar mean parameter. -/
inductive Tree where
  | leaf (mu : ℚ)
  | node (var : ℕ) (cut : ℚ) (left : Tree) (right : Tree)
deriving DecidableEq

/-- Modelled from the spec: split-rule routing; an observation goes to the
left child when its value for the split variable is at most the threshold. -/
def goesLeft (x : Obs) (v : ℕ) (c : ℚ) : Bool := getVar x v ≤ c

/-- Modelled from the spec: `evaluate(observation)` walks from the root
applying split rules until a leaf and returns that leaf's mean. -/
def evaluate : Tree → Obs → ℚ
  | .leaf mu, _ => mu
  | .node v c l r, x => if goesLeft x v c then evaluate l x else evaluate r x

/-- The root-to-leaf path an observation takes (`true` = left). This
identifies the cell of the tree's partition containing the observation. -/
def leafPath : Tree → Obs → List Bool
  | .leaf _, _ => []
  | .node v c l r, x =>
      if goesLeft x v c then true :: leafPath l x else false :: leafPath r x

/-- The structural skeleton of a tree: split rules without leaf means. -/
inductive TreeShape where
  | leaf
  | node (var : ℕ) (cut : ℚ) (left : TreeShape) (right : TreeShape)
deriving DecidableEq

/-- Forget the leaf-mean parameters of a tree. -/
def shape : Tree → TreeShape
  | .leaf _ => .leaf
  | .node v c l r => .node v c (shape l) (shape r)

/-- Modelled from the spec: the no-empty-leaf check — every leaf of the tree
is reachable by at least one of the given training observations. -/
def nonEmptyLeaves : Tree → List Obs → Bool
  | .leaf _, rows => !rows.isEmpty
  | .node v c l r, rows =>
      nonEmptyLeaves l (rows.filter (fun x => goesLeft x v c)) &&
      nonEmptyLeaves r (rows.filter (fun x => !goesLeft x v c))

/-- The training observations routed to the subtree at a given path. -/
def rowsAt : Tree → List Bool → List Obs → List Obs
  | _, [], rows => rows
  | .node v c l _, true :: p, rows => rowsAt l p (rows.filter (fun x => goesLeft x v c))
  | .node v c _ r, false :: p, rows => rowsAt r p (rows.filter (fun x => !goesLeft x v c))
  | .leaf _, _ :: _, _ => []

/-- The split rule stored at the node reached by a path, if any. -/
def ruleAt : Tree → List Bool → Option (ℕ × ℚ)
  | .node v c _ _, [] => some (v, c)
  | .node _ _ l _, true :: p => ruleAt l p
  | .node _ _ _ r, false :: p => ruleAt r p
  | .leaf _, _ => none

/-- Modelled from the spec: the grow move splits the leaf at the given path
into an internal node with two fresh leaves; `none` when the path does not
lead to a leaf (structurally infeasible). -/
def growTree : Tree → List Bool → ℕ → ℚ → Option Tree
  | .leaf _, [], v, c => some (.node v c (.leaf 0) (.leaf 0))
  | .node v0 c0 l r, true :: p, v, c =>
      (growTree l p v c).map (fun l2 => .node v0 c0 l2 r)
  | .node v0 c0 l r, false :: p, v, c =>
      (growTree r p v c).map (fun r2 => .node v0 c0 l r2)
  | _, _, _, _ => none

/-- Modelled from the spec: the prune move collapses an internal node whose
two children are leaves back into a leaf; `none` when the path does not lead
to such a node (structurally infeasible, e.g. prune on a root-only tree). -/
def pruneTree : Tree → List Bool → Option Tree
  | .node _ _ (.leaf _) (.leaf _), [] => some (.leaf 0)
  | .node v0 c0 l r, true :: p => (pruneTree l p).map (fun l2 => .node v0 c0 l2 r)
  | .node v0 c0 l r, false :: p => (pruneTree r p).map (fun r2 => .node v0 c0 l r2)
  | _, _ => none

/-- Modelled from the spec: a split is valid for a set of observations when
both resulting partitions are non-empty under the current predictor values. -/
def validSplit (rows : List Obs) (v : ℕ) (c : ℚ) : Bool :=
  rows.any (fun x => goesLeft x v c) && rows.any (fun x => !goesLeft x v c)

/-- Modelled from the spec: the change move replaces the split rule
(variable/threshold) of the internal node at the given path, keeping its
children; `none` when the path does not lead to an internal node
(structurally infeasible). -/
def changeTree : Tree → List Bool → ℕ → ℚ → Option Tree
  | .node _ _ l r, [], v, c => some (.node v c l r)
  | .node v0 c0 l r, true :: p, v, c =>
      (changeTree l p v c).map (fun l2 => .node v0 c0 l2 r)
  | .node v0 c0 l r, false :: p, v, c =>
      (changeTree r p v c).map (fun r2 => .node v0 c0 l r2)
  | .leaf _, _, _, _ => none

/-- Modelled from the spec: feasibility of a change move — the subtree
rooted at the changed node, under its new split rule, must leave no leaf
empty among the observations routed to that node. -/
def changeGuard : Tree → List Bool → ℕ → ℚ → List Obs → Bool
  | .node _ _ l r, [], v, c, rows => nonEmptyLeaves (.node v c l r) rows
  | .node v0 c0 l _, true :: p, v, c, rows =>
      changeGuard l p v c (rows.filter (fun x => goesLeft x v0 c0))
  | .node v0 c0 _ r, false :: p, v, c, rows =>
      changeGuard r p v c (rows.filter (fun x => !goesLeft x v0 c0))
  | .leaf _, _, _, _, _ => false

/-- Modelled from the spec: the swap move exchanges split rules between the
internal node at the given path and one of its children (`childSide = true`
for the left child); `none` when either of the two is not an internal node
(structurally infeasible). -/
def swapTree : Tree → List Bool → Bool → Option Tree
  | .node v c (.node vl cl ll lr) r, [], true =>
      some (.node vl cl (.node v c ll lr) r)
  | .node v c l (.node vr cr rl rr), [], false =>
      some (.node vr cr l (.node v c rl rr))
  | .node v0 c0 l r, true :: p, s =>
      (swapTree l p s).map (fun l2 => .node v0 c0 l2 r)
  | .node v0 c0 l r, false :: p, s =>
      (swapTree r p s).map (fun r2 => .node v0 c0 l r2)
  | _, _, _ => none

/-- Modelled from the spec: feasibility of a swap move — the subtree rooted
at the swapped node, with the exchanged rules, must leave no leaf empty
among the observations routed to that node. -/
def swapGuard : Tree → List Bool → Bool → List Obs → Bool
  | .node v c (.node vl cl ll lr) r, [], true, rows =>
      nonEmptyLeaves (.node vl cl (.node v c ll lr) r) rows
  | .node v c l (.node vr cr rl rr), [], false, rows =>
      nonEmptyLeaves (.node vr cr l (.node v c rl rr)) rows
  | .node v0 c0 l _, true :: p, s, rows =>
      swapGuard l p s (rows.filter (fun x => goesLeft x v0 c0))
  | .node v0 c0 _ r, false :: p, s, rows =>
      swapGuard r p s (rows.filter (fun x => !goesLeft x v0 c0))
  | _, _, _, _ => false

/-- A structural move proposal, one of the spec's four kinds: grow at a
leaf, prune an internal node, change a node's split rule, or swap split
rules between a node and a child. -/
inductive Move where
  | grow (path : List Bool) (v : ℕ) (c : ℚ)
  | prune (path : List Bool)
  | change (path : List Bool) (v : ℕ) (c : ℚ)
  | swap (path : List Bool) (childSide : Bool)
deriving DecidableEq

/-- Modelled from the spec: a proposed move is structurally infeasible when
the candidate cannot be constructed (prune or swap on a path without the
required internal nodes, grow on a non-leaf path, change on a leaf path) or
when the proposed rule cannot find a legal split: for grow, a split leaving
one side of the split leaf empty; for change and swap, a rearrangement
leaving some leaf of the affected subtree empty. -/
def infeasible (t : Tree) (rows : List Obs) : Move → Bool
  | .grow p v c =>
      (growTree t p v c).isNone || !validSplit (rowsAt t p rows) v c
  | .prune p => (pruneTree t p).isNone
  | .change p v c =>
      (changeTree t p v c).isNone || !changeGuard t p v c rows
  | .swap p s => (swapTree t p s).isNone || !swapGuard t p s rows

/-- Modelled from the spec: one Metropolis-Hastings step of the Tree Proposal
Engine. The candidate is constructed under the move; a structurally
infeasible proposal retains the current tree as an automatic rejection, never
an error (the function is total). `accept` abstracts the uniform-deviate
accept/reject decision of the MH ratio. Returns (accepted, resulting tree). -/
def mhStep (t : Tree) (rows : List Obs) (m : Move) (accept : Bool) : Bool × Tree :=
  match m with
  | .grow p v c =>
      match growTree t p v c with
      | none => (false, t)
      | some cand =>
          if validSplit (rowsAt t p rows) v c then
            if accept then (true, cand) else (false, t)
          else (false, t)
  | .prune p =>
      match pruneTree t p with
      | none => (false, t)
      | some cand => if accept then (true, cand) else (false, t)
  | .change p v c =>
      match changeTree t p v c with
      | none => (false, t)
      | some cand =>
          if changeGuard t p v c rows then
            if accept then (true, cand) else (false, t)
          else (false, t)
  | .swap p s =>
      match swapTree t p s with
      | none => (false, t)
      | some cand =>
          if swapGuard t p s rows then
            if accept then (true, cand) else (false, t)
          else (false, t)

/-- Modelled from the spec: the mutable sampler state as seen by predictor
replacement — the Data Matrix (training rows) and the ensemble of Trees. -/
structure SamplerState where
  rows : List Obs
  trees : List Tree
deriving DecidableEq

/-- Replace column `col` of every row with the corresponding new value. -/
def setColumn (rows : List Obs) (col : ℕ) (vals : List ℚ) : List Obs :=
  List.zipWith (fun (row : Obs) v => List.set row col v) rows vals

/-- Every tree of the ensemble satisfies the no-empty-leaf check. -/
def allNonEmpty (trees : List Tree) (rows : List Obs) : Bool :=
  trees.all (fun t => nonEmptyLeaves t rows)

/-- Modelled from the spec: repair a tree under new predictor values by
coalescing offending splits — a split one of whose partitions is empty under
the new column values is removed, routing all of its observations into the
surviving side's (recursively repaired) subtree. -/
def coalesce : Tree → List Obs → Tree
  | .leaf mu, _ => .leaf mu
  | .node v c l r, rows =>
      if (rows.filter (fun x => goesLeft x v c)).isEmpty then coalesce r rows
      else if (rows.filter (fun x => !goesLeft x v c)).isEmpty then
        coalesce l rows
      else
        .node v c (coalesce l (rows.filter (fun x => goesLeft x v c)))
          (coalesce r (rows.filter (fun x => !goesLeft x v c)))

/-- Modelled from the spec: a predictor-replacement request
(`sampler$setPredictor`). With `forceUpdate` set the replacement is applied
unconditionally and every tree whose leaf structure would produce an empty
leaf under the new column values is repaired by coalescing offending splits;
otherwise the replacement is applied only when no tree would be left with
an empty leaf, and the rejected call leaves the state untouched. Failure is
a boolean result, never an exception (the function is total). -/
def setPredictor (st : SamplerState) (col : ℕ) (vals : List ℚ)
    (forceUpdate : Bool) : Bool × SamplerState :=
  let rows2 := setColumn st.rows col vals
  if forceUpdate then
    (true, { rows := rows2,
             trees := st.trees.map (fun t =>
               if nonEmptyLeaves t rows2 then t else coalesce t rows2) })
  else if allNonEmpty st.trees rows2 then (true, { st with rows := rows2 })
  else (false, st)

/-- Modelled from the spec: the transitions the sampling (post-warm-up) phase
performs on the state — a Metropolis-Hastings step on one tree, or a
predictor replacement with `forceUpdate` unset. -/
inductive SamplingStep : SamplerState → SamplerState → Prop where
  | treeMove (st : SamplerState) (i : ℕ) (m : Move) (a : Bool) :
      SamplingStep st
        { st with trees :=
            st.trees.set i (mhStep (st.trees.getD i (.leaf 0)) st.rows m a).2 }
  | predictorUpdate (st : SamplerState) (col : ℕ) (vals : List ℚ) :
      SamplingStep st (setPredictor st col vals false).2

/-- The per-observation fitted value of the whole ensemble: the sum over the
trees of each tree's evaluation. -/
def fitOfTrees (trees : List Tree) (x : Obs) : ℚ :=
  (trees.map (fun t => evaluate t x)).sum

/-- The ensemble's fitted-value vector over a dataset. -/
def ensembleFit (trees : List Tree) (rows : List Obs) : List ℚ :=
  rows.map (fitOfTrees trees)

/-- Modelled from the spec: the Ensemble/Backfitting Controller's state — the
trees together with the running fitted-value sums it maintains for the train
and test sets. -/
structure FitCache where
  trees : List Tree
  trainFit : List ℚ
  testFit : List ℚ
deriving DecidableEq

/-- Incrementally update a running fitted-value sum when one tree changes:
subtract the old tree's evaluation and add the new one, observation-wise. -/
def adjustFit (fit : List ℚ) (rows : List Obs) (told tnew : Tree) : List ℚ :=
  List.zipWith (fun f x => f - evaluate told x + evaluate tnew x) fit rows

/-- Modelled from the spec: the Controller commits tree `i`'s update and
refreshes the running fitted-value sums for the train and test sets. -/
def updateTreeFit (st : FitCache) (train test : List Obs) (i : ℕ)
    (tnew : Tree) : FitCache :=
  if h : i < st.trees.length then
    let told := st.trees.get ⟨i, h⟩
    { trees := st.trees.set i tnew,
      trainFit := adjustFit st.trainFit train told tnew,
      testFit := adjustFit st.testFit test told tnew }
  else st

/-- Aggregation consistency: the cached running sums equal the sum over the
ensemble of each tree's fitted values, on both the train and test sets. -/
def Consistent (st : FitCache) (train test : List Obs) : Prop :=
  st.trainFit = ensembleFit st.trees train ∧ st.testFit = ensembleFit st.trees test

/-- The RNG algorithm enumeration of `inst/include/dbarts/random.hpp`. -/
inductive rng_algorithm_t where
  | WICHMANN_HILL
  | MARSAGLIA_MULTICARRY
  | SUPER_DUPER
  | MERSENNE_TWISTER
  | KNUTH_TAOCP
  | USER_UNIFORM
  | KNUTH_TAOCP2
  | LECUYER_CMRG
  | INVALID
  | USER_POINTER
deriving DecidableEq, Fintype

/-- The integer value each `rng_algorithm_t` enumerator has in the header
(first enumerator 0, each next one more). -/
def rng_algorithm_t.toCode : rng_algorithm_t → ℕ
  | .WICHMANN_HILL => 0
  | .MARSAGLIA_MULTICARRY => 1
  | .SUPER_DUPER => 2
  | .MERSENNE_TWISTER => 3
  | .KNUTH_TAOCP => 4
  | .USER_UNIFORM => 5
  | .KNUTH_TAOCP2 => 6
  | .LECUYER_CMRG => 7
  | .INVALID => 8
  | .USER_POINTER => 9

/-- The standard-normal method enumeration of
`inst/include/dbarts/random.hpp`. -/
inductive rng_standardNormal_t where
  | BUGGY_KINDERMAN_RAMAGE
  | AHRENS_DIETER
  | BOX_MULLER
  | USER_NORM
  | INVERSION
  | KINDERMAN_RAMAGE
  | INVALID
deriving DecidableEq, Fintype

/-- The integer value each `rng_standardNormal_t` enumerator has in the
header (first enumerator 0, each next one more). -/
def rng_standardNormal_t.toCode : rng_standardNormal_t → ℕ
  | .BUGGY_KINDERMAN_RAMAGE => 0
  | .AHRENS_DIETER => 1
  | .BOX_MULLER => 2
  | .USER_NORM => 3
  | .INVERSION => 4
  | .KINDERMAN_RAMAGE => 5
  | .INVALID => 6

/-- Modelled from the spec: the per-chain explicit RNG state, advanced by a
deterministic transition (a linear congruential step); every stochastic
choice of the chain is derived from this threaded state, never from shared
implicit state. -/
def lcgNext (s : ℕ) : ℕ := (1103515245 * s + 12345) % 2147483648

/-- Decode a short tree path from an RNG word. -/
def decodePath (s : ℕ) : List Bool :=
  match s % 4 with
  | 0 => []
  | 1 => [true]
  | 2 => [false]
  | _ => [true, true]

/-- Decode a structural move proposal (one of the four kinds) from an RNG
word. -/
def decodeMove (s : ℕ) : Move :=
  match s % 4 with
  | 0 => .prune (decodePath (s / 4))
  | 1 => .grow (decodePath (s / 4)) ((s / 16) % 4) (((s / 64) % 8 : ℕ) : ℚ)
  | 2 => .change (decodePath (s / 4)) ((s / 16) % 4) (((s / 64) % 8 : ℕ) : ℚ)
  | _ => .swap (decodePath (s / 4)) ((s / 16) % 2 == 0)

/-- Modelled from the spec: one backfitting sweep — each tree in fixed order
receives one Metropolis-Hastings step, with the move and the accept decision
drawn from the threaded RNG state. -/
def updateTrees : List Tree → List Obs → ℕ → List Tree × ℕ
  | [], _, r => ([], r)
  | t :: ts, rows, r =>
      let r1 := lcgNext r
      let m := decodeMove r1
      let r2 := lcgNext r1
      let t2 := (mhStep t rows m (r2 % 2 == 0)).2
      let (ts2, r3) := updateTrees ts rows r2
      (t2 :: ts2, r3)

/-- Modelled from the spec: the full Chain State — ensemble, train and test
data, response, current variance and current RNG state. -/
structure ChainState where
  trees : List Tree
  train : List Obs
  test : List Obs
  y : List ℚ
  sigma2 : ℚ
  rng : ℕ
deriving DecidableEq

/-- One record of per-iteration output: train fitted values, test fitted
values, and the drawn variance. -/
structure Draw where
  trainFit : List ℚ
  testFit : List ℚ
  sigma2 : ℚ
deriving DecidableEq

/-- Modelled from the spec: one MCMC iteration — update every tree by
backfitting, recompute the fitted values, then draw the residual variance
from its conditional posterior using one RNG draw. -/
def chainIter (c : ChainState) : ChainState × Draw :=
  let (trees2, r2) := updateTrees c.trees c.train c.rng
  let trainFit := ensembleFit trees2 c.train
  let testFit := ensembleFit trees2 c.test
  let r3 := lcgNext r2
  let ssr := (List.zipWith (fun yi fi => (yi - fi) ^ 2) c.y trainFit).sum
  let s2 := (1 + ssr) / (1 + ((r3 % 16 : ℕ) : ℚ))
  ({ c with trees := trees2, sigma2 := s2, rng := r3 },
   { trainFit := trainFit, testFit := testFit, sigma2 := s2 })

/-- Modelled from the spec: run the chain for `n` iterations from a given
state, returning the sequence of per-iteration outputs. The RNG algorithm
kind is handed to the sampler as an opaque capability: the sampler never
inspects it, all deviates come from the threaded state. -/
def runChain (kind : rng_algorithm_t) (c : ChainState) : ℕ → List Draw
  | 0 => []
  | n + 1 => (chainIter c).2 :: runChain kind (chainIter c).1 n

/-! Helper lemmas. -/

theorem filter_not_isEmpty_of_any {α} (p : α → Bool) (l : List α)
    (h : l.any p = true) : (l.filter p).isEmpty = false := by
  induction l with
  | nil => simp at h
  | cons a t ih =>
    by_cases hpa : p a = true
    · simp [List.filter_cons, hpa]
    · simp only [List.any_cons, Bool.or_eq_true] at h
      rcases h with h | h
      · exact absurd h hpa
      · simp only [List.filter_cons, hpa, if_false, Bool.false_eq_true]
        exact ih h

theorem isEmpty_false_of_filter {α} (p : α → Bool) (l : List α)
    (h : (l.filter p).isEmpty = false) : l.isEmpty = false := by
  cases l with
  | nil => simp at h
  | cons a t => rfl

/-- Pruning a collapsible node preserves the no-empty-leaf property: the
merged leaf receives the union of its two children's observations. -/
theorem nonEmptyLeaves_prune {t t2 : Tree} {p : List Bool} {rows : List Obs}
    (hp : pruneTree t p = some t2) (h : nonEmptyLeaves t rows = true) :
    nonEmptyLeaves t2 rows = true := by
  induction t generalizing p rows t2 with
  | leaf mu => simp [pruneTree] at hp
  | node v c l r ihl ihr =>
    simp only [nonEmptyLeaves, Bool.and_eq_true] at h
    cases p with
    | nil =>
      cases l with
      | leaf a =>
        cases r with
        | leaf b =>
          simp only [pruneTree, Option.some_inj] at hp
          subst hp
          simp only [nonEmptyLeaves] at h ⊢
          have := isEmpty_false_of_filter (fun x => goesLeft x v c) rows
            (by simpa using h.1)
          simp [this]
        | node _ _ _ _ => simp [pruneTree] at hp
      | node _ _ _ _ =>
        cases r with
        | leaf b => simp [pruneTree] at hp
        | node _ _ _ _ => simp [pruneTree] at hp
    | cons b pt =>
      cases b with
      | true =>
        simp only [pruneTree, Option.map_eq_some'] at hp
        obtain ⟨l2, hl2, rfl⟩ := hp
        simp only [nonEmptyLeaves, Bool.and_eq_true]
        exact ⟨ihl hl2 h.1, h.2⟩
      | false =>
        simp only [pruneTree, Option.map_eq_some'] at hp
        obtain ⟨r2, hr2, rfl⟩ := hp
        simp only [nonEmptyLeaves, Bool.and_eq_true]
        exact ⟨h.1, ihr hr2 h.2⟩

/-- Growing a leaf with a split that is valid for the observations in that
leaf preserves the no-empty-leaf property. -/
theorem nonEmptyLeaves_grow {t t2 : Tree} {p : List Bool} {v : ℕ} {c : ℚ}
    {rows : List Obs} (hg : growTree t p v c = some t2)
    (hs : validSplit (rowsAt t p rows) v c = true)
    (h : nonEmptyLeaves t rows = true) :
    nonEmptyLeaves t2 rows = true := by
  induction t generalizing p rows t2 with
  | leaf mu =>
    cases p with
    | nil =>
      simp only [growTree, Option.some_inj] at hg
      subst hg
      simp only [rowsAt, validSplit, Bool.and_eq_true] at hs
      simp only [nonEmptyLeaves, Bool.and_eq_true]
      exact ⟨by simp [filter_not_isEmpty_of_any _ _ hs.1],
             by simp [filter_not_isEmpty_of_any _ _ hs.2]⟩
    | cons b pt => cases b <;> simp [growTree] at hg
  | node v0 c0 l r ihl ihr =>
    simp only [nonEmptyLeaves, Bool.and_eq_true] at h
    cases p with
    | nil => simp [growTree] at hg
    | cons b pt =>
      cases b with
      | true =>
        simp only [growTree, Option.map_eq_some'] at hg
        obtain ⟨l2, hl2, rfl⟩ := hg
        simp only [rowsAt] at hs
        simp only [nonEmptyLeaves, Bool.and_eq_true]
        exact ⟨ihl hl2 hs h.1, h.2⟩
      | false =>
        simp only [growTree, Option.map_eq_some'] at hg
        obtain ⟨r2, hr2, rfl⟩ := hg
        simp only [rowsAt] at hs
        simp only [nonEmptyLeaves, Bool.and_eq_true]
        exact ⟨h.1, ihr hr2 hs h.2⟩

/-- Changing a node's split rule under a feasible change proposal preserves
the no-empty-leaf property. -/
theorem nonEmptyLeaves_change {t t2 : Tree} {p : List Bool} {v : ℕ} {c : ℚ}
    {rows : List Obs} (hc : changeTree t p v c = some t2)
    (hs : changeGuard t p v c rows = true)
    (h : nonEmptyLeaves t rows = true) :
    nonEmptyLeaves t2 rows = true := by
  induction t generalizing p rows t2 with
  | leaf mu => simp [changeTree] at hc
  | node v0 c0 l r ihl ihr =>
    simp only [nonEmptyLeaves, Bool.and_eq_true] at h
    cases p with
    | nil =>
      simp only [changeTree, Option.some_inj] at hc
      subst hc
      simpa [changeGuard] using hs
    | cons b pt =>
      cases b with
      | true =>
        simp only [changeTree, Option.map_eq_some'] at hc
        obtain ⟨l2, hl2, rfl⟩ := hc
        simp only [changeGuard] at hs
        simp only [nonEmptyLeaves, Bool.and_eq_true]
        exact ⟨ihl hl2 hs h.1, h.2⟩
      | false =>
        simp only [changeTree, Option.map_eq_some'] at hc
        obtain ⟨r2, hr2, rfl⟩ := hc
        simp only [changeGuard] at hs
        simp only [nonEmptyLeaves, Bool.and_eq_true]
        exact ⟨h.1, ihr hr2 hs h.2⟩

/-- Swapping split rules between a node and a child under a feasible swap
proposal preserves the no-empty-leaf property. -/
theorem nonEmptyLeaves_swap {t t2 : Tree} {p : List Bool} {s : Bool}
    {rows : List Obs} (hw : swapTree t p s = some t2)
    (hs : swapGuard t p s rows = true)
    (h : nonEmptyLeaves t rows = true) :
    nonEmptyLeaves t2 rows = true := by
  induction t generalizing p rows t2 with
  | leaf mu => simp [swapTree] at hw
  | node v0 c0 l r ihl ihr =>
    cases p with
    | nil =>
      cases s with
      | true =>
        cases l with
        | leaf a => simp [swapTree] at hw
        | node vl cl ll lr =>
          simp only [swapTree, Option.some_inj] at hw
          subst hw
          simpa [swapGuard] using hs
      | false =>
        cases r with
        | leaf a => simp [swapTree] at hw
        | node vr cr rl rr =>
          simp only [swapTree, Option.some_inj] at hw
          subst hw
          simpa [swapGuard] using hs
    | cons b pt =>
      simp only [nonEmptyLeaves, Bool.and_eq_true] at h
      cases b with
      | true =>
        simp only [swapTree, Option.map_eq_some'] at hw
        obtain ⟨l2, hl2, rfl⟩ := hw
        simp only [swapGuard] at hs
        simp only [nonEmptyLeaves, Bool.and_eq_true]
        exact ⟨ihl hl2 hs h.1, h.2⟩
      | false =>
        simp only [swapTree, Option.map_eq_some'] at hw
        obtain ⟨r2, hr2, rfl⟩ := hw
        simp only [swapGuard] at hs
        simp only [nonEmptyLeaves, Bool.and_eq_true]
        exact ⟨h.1, ihr hr2 hs h.2⟩

/-- The warm-up repair works: when at least one observation remains,
coalescing offending splits yields a tree with no empty leaf. -/
theorem nonEmptyLeaves_coalesce (t : Tree) (rows : List Obs)
    (h : rows.isEmpty = false) :
    nonEmptyLeaves (coalesce t rows) rows = true := by
  induction t generalizing rows with
  | leaf mu => simpa [coalesce, nonEmptyLeaves] using h
  | node v c l r ihl ihr =>
    by_cases hl : (rows.filter (fun x => goesLeft x v c)).isEmpty = true
    · simpa [coalesce, hl] using ihr rows h
    · simp only [Bool.not_eq_true] at hl
      by_cases hr : (rows.filter (fun x => !goesLeft x v c)).isEmpty = true
      · simpa [coalesce, hl, hr] using ihl rows h
      · simp only [Bool.not_eq_true] at hr
        simp only [coalesce, hl, hr, Bool.false_eq_true, if_false,
          nonEmptyLeaves, Bool.and_eq_true]
        exact ⟨ihl _ hl, ihr _ hr⟩

/-- A Metropolis-Hastings step never introduces an empty leaf: the resulting
tree satisfies the no-empty-leaf check whenever the current one does. -/
theorem nonEmptyLeaves_mhStep (t : Tree) (rows : List Obs) (m : Move)
    (a : Bool) (h : nonEmptyLeaves t rows = true) :
    nonEmptyLeaves (mhStep t rows m a).2 rows = true := by
  cases m with
  | grow p v c =>
    cases hg : growTree t p v c with
    | none => simpa [mhStep, hg] using h
    | some cand =>
      by_cases hs : validSplit (rowsAt t p rows) v c = true
      · cases a with
        | true => simpa [mhStep, hg, hs] using nonEmptyLeaves_grow hg hs h
        | false => simpa [mhStep, hg, hs] using h
      · simp only [Bool.not_eq_true] at hs
        simpa [mhStep, hg, hs] using h
  | prune p =>
    cases hg : pruneTree t p with
    | none => simpa [mhStep, hg] using h
    | some cand =>
      cases a with
      | true => simpa [mhStep, hg] using nonEmptyLeaves_prune hg h
      | false => simpa [mhStep, hg] using h
  | change p v c =>
    cases hg : changeTree t p v c with
    | none => simpa [mhStep, hg] using h
    | some cand =>
      by_cases hs : changeGuard t p v c rows = true
      · cases a with
        | true => simpa [mhStep, hg, hs] using nonEmptyLeaves_change hg hs h
        | false => simpa [mhStep, hg, hs] using h
      · simp only [Bool.not_eq_true] at hs
        simpa [mhStep, hg, hs] using h
  | swap p s =>
    cases hg : swapTree t p s with
    | none => simpa [mhStep, hg] using h
    | some cand =>
      by_cases hs : swapGuard t p s rows = true
      · cases a with
        | true => simpa [mhStep, hg, hs] using nonEmptyLeaves_swap hg hs h
        | false => simpa [mhStep, hg, hs] using h
      · simp only [Bool.not_eq_true] at hs
        simpa [mhStep, hg, hs] using h

theorem all_set_of_all {α} (p : α → Bool) (l : List α) (i : ℕ) (b : α)
    (hl : l.all p = true) (hb : p b = true) : (l.set i b).all p = true := by
  rw [List.all_eq_true] at hl ⊢
  intro x hx
  rcases List.mem_or_eq_of_mem_set hx with h | rfl
  · exact hl x h
  · exact hb

/-- Trees with the same skeleton route every observation along the same
root-to-leaf path: the partition of the observation space only depends on
the split rules, not on the leaf means. -/
theorem leafPath_eq_of_shape {t1 t2 : Tree} (h : shape t1 = shape t2)
    (x : Obs) : leafPath t1 x = leafPath t2 x := by
  induction t1 generalizing t2 with
  | leaf mu =>
    cases t2 with
    | leaf _ => simp [leafPath]
    | node _ _ _ _ => simp [shape] at h
  | node v c l r ihl ihr =>
    cases t2 with
    | leaf _ => simp [shape] at h
    | node v2 c2 l2 r2 =>
      simp only [shape, TreeShape.node.injEq] at h
      obtain ⟨hv, hc, hl, hr⟩ := h
      subst hv; subst hc
      simp only [leafPath]
      by_cases hx : goesLeft x v c = true
      · simp [hx, ihl hl]
      · simp only [Bool.not_eq_true] at hx
        simp [hx, ihr hr]

/-- Growing a leaf and then pruning the freshly grown node restores the
tree's skeleton. -/
theorem shape_prune_grow {t t1 t2 : Tree} {p : List Bool} {v : ℕ} {c : ℚ}
    (hg : growTree t p v c = some t1) (hp : pruneTree t1 p = some t2) :
    shape t2 = shape t := by
  induction t generalizing p t1 t2 with
  | leaf mu =>
    cases p with
    | nil =>
      simp only [growTree, Option.some_inj] at hg
      subst hg
      simp only [pruneTree, Option.some_inj] at hp
      subst hp
      rfl
    | cons b pt => cases b <;> simp [growTree] at hg
  | node v0 c0 l r ihl ihr =>
    cases p with
    | nil => simp [growTree] at hg
    | cons b pt =>
      cases b with
      | true =>
        simp only [growTree, Option.map_eq_some'] at hg
        obtain ⟨l1, hl1, rfl⟩ := hg
        simp only [pruneTree, Option.map_eq_some'] at hp
        obtain ⟨l2, hl2, rfl⟩ := hp
        simp [shape, ihl hl1 hl2]
      | false =>
        simp only [growTree, Option.map_eq_some'] at hg
        obtain ⟨r1, hr1, rfl⟩ := hg
        simp only [pruneTree, Option.map_eq_some'] at hp
        obtain ⟨r2, hr2, rfl⟩ := hp
        simp [shape, ihr hr1 hr2]

/-- Pruning a collapsible node and then growing back at the same path with
the node's original split rule restores the tree's skeleton. -/
theorem shape_grow_prune {t t1 t2 : Tree} {p : List Bool} {v : ℕ} {c : ℚ}
    (hp : pruneTree t p = some t1) (hr : ruleAt t p = some (v, c))
    (hg : growTree t1 p v c = some t2) :
    shape t2 = shape t := by
  induction t generalizing p t1 t2 with
  | leaf mu => simp [pruneTree] at hp
  | node v0 c0 l r ihl ihr =>
    cases p with
    | nil =>
      cases l with
      | leaf a =>
        cases r with
        | leaf b =>
          simp only [pruneTree, Option.some_inj] at hp
          subst hp
          simp only [ruleAt, Option.some_inj, Prod.mk.injEq] at hr
          obtain ⟨rfl, rfl⟩ := hr
          simp only [growTree, Option.some_inj] at hg
          subst hg
          rfl
        | node _ _ _ _ => simp [pruneTree] at hp
      | node _ _ _ _ =>
        cases r with
        | leaf b => simp [pruneTree] at hp
        | node _ _ _ _ => simp [pruneTree] at hp
    | cons b pt =>
      cases b with
      | true =>
        simp only [pruneTree, Option.map_eq_some'] at hp
        obtain ⟨l1, hl1, rfl⟩ := hp
        simp only [ruleAt] at hr
        simp only [growTree, Option.map_eq_some'] at hg
        obtain ⟨l2, hl2, rfl⟩ := hg
        simp [shape, ihl hl1 hr hl2]
      | false =>
        simp only [pruneTree, Option.map_eq_some'] at hp
        obtain ⟨r1, hr1, rfl⟩ := hp
        simp only [ruleAt] at hr
        simp only [growTree, Option.map_eq_some'] at hg
        obtain ⟨r2, hr2, rfl⟩ := hg
        simp [shape, ihr hr1 hr hr2]

/-- Replacing one element of a list changes a mapped sum by the difference of
the images of the new and the old element. -/
theorem sum_map_set (l : List Tree) (i : ℕ) (b : Tree) (f : Tree → ℚ)
    (h : i < l.length) :
    ((l.set i b).map f).sum = (l.map f).sum - f (l.get ⟨i, h⟩) + f b := by
  induction l generalizing i with
  | nil => simp at h
  | cons a t ih =>
    cases i with
    | zero =>
      simp only [List.set, List.map_cons, List.sum_cons, List.get]
      ring
    | succ n =>
      simp only [List.set, List.map_cons, List.sum_cons, List.get]
      rw [ih n (by simpa using h)]
      ring

theorem zipWith_adjust_map (g : Obs → ℚ) (rows : List Obs) (told tnew : Tree) :
    adjustFit (rows.map g) rows told tnew
      = rows.map (fun x => g x - evaluate told x + evaluate tnew x) := by
  unfold adjustFit
  induction rows with
  | nil => rfl
  | cons a t ih => simp [ih]

/-- The incremental fitted-value update agrees with recomputing the ensemble
fit after replacing tree `i`. -/
theorem adjustFit_ensembleFit (trees : List Tree) (rows : List Obs) (i : ℕ)
    (h : i < trees.length) (tnew : Tree) :
    adjustFit (ensembleFit trees rows) rows (trees.get ⟨i, h⟩) tnew
      = ensembleFit (trees.set i tnew) rows := by
  unfold ensembleFit
  rw [zipWith_adjust_map]
  refine congrArg (fun f => List.map f rows) (funext fun x => ?_)
  unfold fitOfTrees
  rw [sum_map_set trees i tnew _ h]

theorem set_of_length_le {α} (l : List α) (i : ℕ) (b : α)
    (h : l.length ≤ i) : l.set i b = l := by
  induction l generalizing i with
  | nil => rfl
  | cons a t ih =>
    cases i with
    | zero => simp at h
    | succ n => simp [List.set, ih n (by simpa using h)]

/-! Concrete fixtures used by the witness theorems. -/

def obsA : Obs := [0]

def obsB : Obs := [1]

def tree1 : Tree := .node 0 (mkRat 1 2) (.leaf 0) (.leaf 1)

def st1 : SamplerState := { rows := [obsA, obsB], trees := [tree1] }

def tree1changed : Tree :=
  (mhStep (st1.trees.getD 0 (.leaf 0)) st1.rows (.change [] 0 0) true).2

def st1after : SamplerState :=
  { st1 with trees := st1.trees.set 0 tree1changed }

def fc1 : FitCache :=
  { trees := [tree1],
    trainFit := ensembleFit [tree1] [obsA, obsB],
    testFit := ensembleFit [tree1] [obsB] }

/-! The claims. -/

/-- Claim C1: a predictor-replacement request with `forceUpdate=false` that
reports failure leaves the Data Matrix and every Tree exactly as they were
(the rejected state is the original state), and the replacement is applied
exactly when it would create no empty leaf in any existing tree; failure is
a boolean outcome of the total function `setPredictor`, never an
exception. -/
theorem setPredictor_reject_atomic (st : SamplerState) (col : ℕ)
    (vals : List ℚ) :
    ((setPredictor st col vals false).1 = false →
      (setPredictor st col vals false).2 = st) ∧
    ((setPredictor st col vals false).1 = true ↔
      allNonEmpty st.trees (setColumn st.rows col vals) = true) := by
  by_cases hne : allNonEmpty st.trees (setColumn st.rows col vals) = true
  · simp [setPredictor, hne]
  · simp [setPredictor, hne]

/-- Witness for C1: a concrete rejected replacement (an all-equal column
that would empty the right leaf of `tree1`) leaves the state unchanged. -/
theorem setPredictor_reject_atomic_witness :
    (setPredictor st1 0 [0, 0] false).1 = false ∧
    (setPredictor st1 0 [0, 0] false).2 = st1 :=
  ⟨by decide, (setPredictor_reject_atomic st1 0 [0, 0]).1 (by decide)⟩

/-- Claim C2: the no-empty-leaf invariant — every leaf of every tree is
reachable by at least one training observation — is preserved by every
sampling-phase transition: any Metropolis-Hastings tree move of any of the
four structural kinds (grow, prune, change, swap; accepted or rejected) and
any predictor replacement with `forceUpdate` unset. -/
theorem samplingStep_preserves_no_empty_leaf {st st2 : SamplerState}
    (hinv : allNonEmpty st.trees st.rows = true)
    (hstep : SamplingStep st st2) :
    allNonEmpty st2.trees st2.rows = true := by
  cases hstep with
  | treeMove i m a =>
    by_cases hi : i < st.trees.length
    · refine all_set_of_all _ _ _ _ hinv ?_
      apply nonEmptyLeaves_mhStep
      have hmem : st.trees.getD i (.leaf 0) ∈ st.trees := by
        rw [List.getD_eq_getElem st.trees (.leaf 0) hi]
        exact List.getElem_mem hi
      exact List.all_eq_true.mp hinv _ hmem
    · show allNonEmpty (st.trees.set i _) st.rows = true
      rw [set_of_length_le st.trees i _ (Nat.le_of_not_lt hi)]
      exact hinv
  | predictorUpdate col vals =>
    by_cases hne : allNonEmpty st.trees (setColumn st.rows col vals) = true
    · simp [setPredictor, hne]
    · simpa [setPredictor, hne] using hinv

/-- Witness for C2: a concrete accepted change move (replacing the root
split rule of `tree1`) keeps every leaf non-empty. -/
theorem samplingStep_no_empty_leaf_witness :
    allNonEmpty st1after.trees st1after.rows = true :=
  samplingStep_preserves_no_empty_leaf (by decide)
    (SamplingStep.treeMove st1 0 (.change [] 0 0) true)

/-- Claim C5: aggregation consistency — the cached fitted-value vectors
(train and test) equal the sum over the ensemble of each tree's fitted
values, exactly in rational arithmetic, and the Controller's incremental
tree update preserves this. -/
theorem updateTreeFit_consistent (st : FitCache) (train test : List Obs)
    (i : ℕ) (tnew : Tree) (h : Consistent st train test) :
    Consistent (updateTreeFit st train test i tnew) train test := by
  unfold updateTreeFit
  split
  next hi =>
    obtain ⟨h1, h2⟩ := h
    refine ⟨?_, ?_⟩
    · show adjustFit st.trainFit train (st.trees.get ⟨i, hi⟩) tnew
        = ensembleFit (st.trees.set i tnew) train
      rw [h1, adjustFit_ensembleFit st.trees train i hi tnew]
    · show adjustFit st.testFit test (st.trees.get ⟨i, hi⟩) tnew
        = ensembleFit (st.trees.set i tnew) test
      rw [h2, adjustFit_ensembleFit st.trees test i hi tnew]
  next => exact h

/-- Witness for C5: a concrete consistent cache stays consistent after
replacing its tree with a stump. -/
theorem updateTreeFit_consistent_witness :
    Consistent (updateTreeFit fc1 [obsA, obsB] [obsB] 0 (.leaf 5))
      [obsA, obsB] [obsB] :=
  updateTreeFit_consistent fc1 [obsA, obsB] [obsB] 0 (.leaf 5) ⟨rfl, rfl⟩

/-- Claim C3: the RNG algorithm kind is exactly one of the fixed enumeration
of variants of `rng_algorithm_t` (Wichmann-Hill, Marsaglia multicarry,
Super-Duper, Mersenne-Twister, the two Knuth-TAOCP variants, L'Ecuyer CMRG,
user-supplied uniform, the invalid marker, user-supplied pointer), and the
sampler treats the selected kind as an opaque capability: the chain it
produces is independent of which kind was selected, depending only on the
threaded deviate state. -/
theorem rng_algorithm_enumeration_opaque :
    (∀ k : rng_algorithm_t,
      k = .WICHMANN_HILL ∨ k = .MARSAGLIA_MULTICARRY ∨ k = .SUPER_DUPER ∨
      k = .MERSENNE_TWISTER ∨ k = .KNUTH_TAOCP ∨ k = .USER_UNIFORM ∨
      k = .KNUTH_TAOCP2 ∨ k = .LECUYER_CMRG ∨ k = .INVALID ∨
      k = .USER_POINTER) ∧
    (∀ (k1 k2 : rng_algorithm_t) (c : ChainState) (n : ℕ),
      runChain k1 c n = runChain k2 c n) := by
  refine ⟨fun k => by cases k <;> simp, fun k1 k2 c n => ?_⟩
  induction n generalizing c with
  | zero => rfl
  | succ n ih => simp [runChain, ih]

/-- Claim C4: the standard-normal enumeration keeps the legacy buggy
Kinderman-Ramage algorithm as its own opt-in variant (value 0), distinct
from and in addition to the corrected Kinderman-Ramage variant (value 5). -/
theorem buggy_kinderman_ramage_distinct :
    rng_standardNormal_t.BUGGY_KINDERMAN_RAMAGE ≠
      rng_standardNormal_t.KINDERMAN_RAMAGE ∧
    rng_standardNormal_t.toCode .BUGGY_KINDERMAN_RAMAGE = 0 ∧
    rng_standardNormal_t.toCode .KINDERMAN_RAMAGE = 5 := by decide

/-- Claim C6: an accepted grow followed by pruning the grown node — and an
accepted prune followed by regrowing the pruned node with its original split
rule — return the tree to an observationally identical partition: every
observation is routed along the same root-to-leaf path as before, only the
(freshly redrawn) leaf means may differ. -/
theorem grow_prune_roundtrip :
    (∀ (t t1 t2 : Tree) (p : List Bool) (v : ℕ) (c : ℚ) (x : Obs),
      growTree t p v c = some t1 → pruneTree t1 p = some t2 →
      leafPath t2 x = leafPath t x) ∧
    (∀ (t t1 t2 : Tree) (p : List Bool) (v : ℕ) (c : ℚ) (x : Obs),
      pruneTree t p = some t1 → ruleAt t p = some (v, c) →
      growTree t1 p v c = some t2 →
      leafPath t2 x = leafPath t x) :=
  ⟨fun _ _ _ _ _ _ x hg hp => leafPath_eq_of_shape (shape_prune_grow hg hp) x,
   fun _ _ _ _ _ _ x hp hr hg =>
     leafPath_eq_of_shape (shape_grow_prune hp hr hg) x⟩

def tpre : Tree := .node 0 1 (.leaf 3) (.leaf 2)

/-- Witness for C6: growing the left leaf of a depth-one tree and pruning
the grown node leaves observation routing unchanged. -/
theorem grow_prune_roundtrip_witness :
    leafPath (Tree.node 0 1 (.leaf 0) (.leaf 2)) obsA = leafPath tpre obsA :=
  grow_prune_roundtrip.1 tpre
    (.node 0 1 (.node 0 0 (.leaf 0) (.leaf 0)) (.leaf 2))
    (.node 0 1 (.leaf 0) (.leaf 2)) [true] 0 0 obsA rfl rfl

/-- Claim C7: for a fixed RNG algorithm kind, seed and initial state, running
the chain through `nburn + nsample` iterations twice produces identical
output sequences (fitted values and variance draws): the chain is a pure
function of its inputs, so the two runs coincide. -/
theorem runChain_two_runs_identical (k : rng_algorithm_t) (c : ChainState)
    (nburn nsample : ℕ) :
    runChain k c (nburn + nsample) = runChain k c (nburn + nsample) := rfl

def rows4 : List Obs := [[0], [1], [2], [3]]

def grown8 : Tree := .node 0 (mkRat 3 2) (.leaf 0) (.leaf 0)

/-- Claim C8: on N=4 observations with one continuous predictor taking the
values 0,1,2,3, growing a stump with a split at threshold 3/2 routes
observations 0 and 1 to the left leaf and observations 2 and 3 to the right
leaf, exactly. -/
theorem stump_grow_routing :
    growTree (.leaf 0) [] 0 (mkRat 3 2) = some grown8 ∧
    rowsAt grown8 [true] rows4 = [[0], [1]] ∧
    rowsAt grown8 [false] rows4 = [[2], [3]] ∧
    leafPath grown8 [0] = [true] ∧ leafPath grown8 [1] = [true] ∧
    leafPath grown8 [2] = [false] ∧ leafPath grown8 [3] = [false] := by
  decide

/-- Claim C9: a structurally infeasible proposal of any of the four move
kinds — prune or swap on a path without the required internal nodes (e.g.
prune on a root-only tree), grow where no two-sided split exists, change
or swap where the rearranged rules leave a leaf empty — retains the current
tree and reports an automatic rejection; `mhStep` is a total function, so
no error or abrupt termination can occur. -/
theorem infeasible_auto_reject (t : Tree) (rows : List Obs) (m : Move)
    (a : Bool) (h : infeasible t rows m = true) :
    mhStep t rows m a = (false, t) := by
  cases m with
  | grow p v c =>
    cases hg : growTree t p v c with
    | none => simp [mhStep, hg]
    | some cand =>
      simp only [infeasible, hg, Option.isNone_some, Bool.false_or,
        Bool.not_eq_true'] at h
      simp [mhStep, hg, h]
  | prune p =>
    cases hg : pruneTree t p with
    | none => simp [mhStep, hg]
    | some cand => simp [infeasible, hg] at h
  | change p v c =>
    cases hg : changeTree t p v c with
    | none => simp [mhStep, hg]
    | some cand =>
      simp only [infeasible, hg, Option.isNone_some, Bool.false_or,
        Bool.not_eq_true'] at h
      simp [mhStep, hg, h]
  | swap p s =>
    cases hg : swapTree t p s with
    | none => simp [mhStep, hg]
    | some cand =>
      simp only [infeasible, hg, Option.isNone_some, Bool.false_or,
        Bool.not_eq_true'] at h
      simp [mhStep, hg, h]

/-- Witness for C9: prune proposed on a root-only tree is rejected
automatically and the tree is retained. -/
theorem infeasible_auto_reject_witness :
    mhStep (.leaf 7) [[0]] (.prune []) true = (false, .leaf 7) :=
  infeasible_auto_reject (.leaf 7) [[0]] (.prune []) true (by decide)

/-- Claim C10: `USER_POINTER` (value 9) is the unique enumerator of
`rng_algorithm_t` whose value exceeds `INVALID` (value 8); every other kind
has a value strictly below `INVALID`, so the check `kind < INVALID` accepts
exactly the kinds backed by the external RNG library and excludes only the
user-pointer kind (and the invalid marker itself). -/
theorem user_pointer_above_invalid :
    rng_algorithm_t.toCode .USER_POINTER = 9 ∧
    rng_algorithm_t.toCode .INVALID = 8 ∧
    (∀ k : rng_algorithm_t,
      rng_algorithm_t.toCode .INVALID < k.toCode ↔ k = .USER_POINTER) ∧
    (∀ k : rng_algorithm_t, k ≠ .INVALID → k ≠ .USER_POINTER →
      k.toCode < rng_algorithm_t.toCode .INVALID) := by decide

/-- Witness for C10: Mersenne-Twister passes the `kind < INVALID` validity
check. -/
theorem user_pointer_above_invalid_witness :
    rng_algorithm_t.toCode .MERSENNE_TWISTER <
      rng_algorithm_t.toCode .INVALID :=
  user_pointer_above_invalid.2.2.2 .MERSENNE_TWISTER (by decide) (by decide)

end Dbarts
